import Mathlib

/-!
Shallow embedding of `src/abcd_microstructure_pipelines/masks.py`.

Paths are modelled as POSIX pure paths (lists of name components, each name a
list of characters, as Python strings are sequences of code points).  The
filesystem under a root directory is modelled as the list of its files, given
as root-relative paths in traversal order.  The dipy image I/O, the
gradient-table construction and the HD_BET model are external collaborators:
they enter the model as opaque data (loaded image contents, the b0
classification mask, an abstract written value).
-/

namespace Masks

/-- A Python string, as its list of characters. -/
abbrev Str := List Char

/-- Model of `s.endswith(t)`. -/
def strEndsWith (s t : Str) : Bool := t.isSuffixOf s

/-- Model of `s.removesuffix(t)` (PEP 616): drop a final occurrence of `t`, if present. -/
def strRemovesuffix (s t : Str) : Str :=
  if strEndsWith s t then s.take (s.length - t.length) else s

/-- Model of `s.rfind('.')`: index of the last `'.'` in `s`, if any. -/
def rfindDot (s : Str) : Option Nat :=
  match s.reverse.findIdx? (fun c => c == '.') with
  | none => none
  | some j => some (s.length - 1 - j)

/-- Length of `PurePath.suffix` of a file name: pathlib takes the part of the
name from its last dot, provided that dot is neither the first nor the last
character; otherwise the suffix is empty. -/
def nameSuffixLen (s : Str) : Nat :=
  match rfindDot s with
  | none => 0
  | some i => if 0 < i ∧ i < s.length - 1 then s.length - i else 0

/-- Model of `PurePath.with_suffix` on a file name: remove the current suffix (if any)
and append the new one. -/
def withSuffixName (s t : Str) : Str :=
  let k := nameSuffixLen s
  if k = 0 then s ++ t else s.take (s.length - k) ++ t

/-- A POSIX pure path: its list of components (`PurePath.parts`). -/
structure PyPath where
  parts : List Str
deriving DecidableEq

/-- Model of `PurePath.name`: the final component, or empty. -/
def PyPath.name (p : PyPath) : Str := p.parts.getLastD []

/-- Model of `PurePath.with_name`: replace the final component. -/
def PyPath.withName (p : PyPath) (n : Str) : PyPath := ⟨p.parts.dropLast ++ [n]⟩

/-- Model of `PurePath.with_suffix`: replace the suffix of the final component. -/
def PyPath.withSuffix (p : PyPath) (t : Str) : PyPath :=
  p.withName (withSuffixName p.name t)

/-- Model of `PurePath.joinpath`. -/
def PyPath.joinpath (p q : PyPath) : PyPath := ⟨p.parts ++ q.parts⟩

/-- Model of `PurePath.relative_to`: strip `root`'s components off the front, failing
(`ValueError`) when `root` is not an ancestor. -/
def PyPath.relative_to (p root : PyPath) : Option PyPath :=
  if root.parts.isPrefixOf p.parts then some ⟨p.parts.drop root.parts.length⟩
  else none

/-- Model of `str(path)` for a relative POSIX path: components joined by `'/'`. -/
def PyPath.toStr (p : PyPath) : Str := (p.parts.intersperse ['/']).flatten

/-- The suffix of a name matched by the glob pattern `*_dwi.nii.gz`
(fnmatch: `*` matches any, possibly empty, run of characters). -/
def sDwiPattern : Str := "_dwi.nii.gz".data

def sNiiGz : Str := ".nii.gz".data
def sBval : Str := ".bval".data
def sBvec : Str := ".bvec".data
def sB0NiiGz : Str := ".b0.nii.gz".data
def sMaskNiiGz : Str := "_mask.nii.gz".data
def sDwi : Str := "_dwi".data

/-- Model of `masks.find_all_cases` (masks.py lines 18-23): `root.rglob("*_dwi.nii.gz")`
yields, in traversal order, every file at any depth under `root` whose name
ends in `_dwi.nii.gz`; each is yielded with `.nii.gz` removed from its name.
`fs` is the list of files under `root` as root-relative paths in traversal
order. -/
def find_all_cases (root : PyPath) (fs : List PyPath) : List PyPath :=
  fs.filterMap (fun rel =>
    let dwi := root.joinpath rel
    if strEndsWith dwi.name sDwiPattern then
      some (dwi.withName (strRemovesuffix dwi.name sNiiGz))
    else none)

/-- Model of `dwi = base.with_suffix(".nii.gz")` (masks.py line 68). -/
def case_dwi (base : PyPath) : PyPath := base.withSuffix sNiiGz

/-- Model of `bval = base.with_suffix(".bval")` (masks.py line 69). -/
def case_bval (base : PyPath) : PyPath := base.withSuffix sBval

/-- Model of `bvec = base.with_suffix(".bvec")` (masks.py line 70). -/
def case_bvec (base : PyPath) : PyPath := base.withSuffix sBvec

/-- Model of `b0_out = base_out.with_suffix(".b0.nii.gz")` (masks.py line 72). -/
def case_b0_out (base_out : PyPath) : PyPath := base_out.withSuffix sB0NiiGz

/-- Model of `mask_out = base_out.with_suffix(".nii.gz")` (masks.py line 78). -/
def case_mask_out (base_out : PyPath) : PyPath := base_out.withSuffix sNiiGz

/-- Model of `mask_out_real = base_out.with_name(base_out.name + "_mask.nii.gz")`
(masks.py line 79). -/
def case_mask_out_real (base_out : PyPath) : PyPath :=
  base_out.withName (base_out.name ++ sMaskNiiGz)

/-- An argument tuple for `gen_b0_mean`: `(dwi, bval, bvec, b0_out)`. -/
abbrev B0Task := PyPath × PyPath × PyPath × PyPath

/-- What one iteration of the `gen_masks` planning loop contributes:
the appended `b0_tasks` entry, if any, and the appended
`(hd_bet_input, hd_bet_output)` entry, if any. -/
structure CasePlan where
  b0_task : Option B0Task
  mask_pair : Option (Str × Str)
deriving DecidableEq

/-- The body of the `for base in find_all_cases(inputs)` loop of `gen_masks`
(masks.py lines 65-83).  `ex` is existence on the filesystem as observed
during planning (`Path.exists`).  `none` models the `ValueError` that
`relative_to` raises when `base` is not under `inputs`. -/
def process_case (inputs outputs : PyPath) (overwrite : Bool) (ex : PyPath → Bool)
    (base : PyPath) : Option CasePlan :=
  match base.relative_to inputs with
  | none => none
  | some rel =>
    let base_out := outputs.joinpath rel
    let b0_out := case_b0_out base_out
    some
      { b0_task :=
          if overwrite || !ex b0_out then
            some (case_dwi base, case_bval base, case_bvec base, b0_out)
          else none
        mask_pair :=
          if overwrite || !ex (case_mask_out_real base_out) then
            some (b0_out.toStr, (case_mask_out base_out).toStr)
          else none }

/-- The three lists `gen_masks` has accumulated when planning finishes
(masks.py lines 60-83). -/
structure GenMasksPlan where
  b0_tasks : List B0Task
  hd_bet_input : List Str
  hd_bet_output : List Str
deriving DecidableEq

/-- Run an option-valued function over a list, aborting at the first failure,
as an uncaught exception aborts the planning loop. -/
def mapOpt (f : α → Option β) : List α → Option (List β)
  | [] => some []
  | a :: l =>
    match f a, mapOpt f l with
    | some b, some bs => some (b :: bs)
    | _, _ => none

/-- The planning phase of `gen_masks` (masks.py lines 60-83): one pass over
`find_all_cases inputs`, accumulating the three lists in loop order. -/
def gen_masks_plan (inputs outputs : PyPath) (overwrite : Bool)
    (fs : List PyPath) (ex : PyPath → Bool) : Option GenMasksPlan :=
  match mapOpt (process_case inputs outputs overwrite ex) (find_all_cases inputs fs) with
  | none => none
  | some rs =>
    some
      { b0_tasks := rs.filterMap (fun r => r.b0_task)
        hd_bet_input := rs.filterMap (fun r => r.mask_pair.map Prod.fst)
        hd_bet_output := rs.filterMap (fun r => r.mask_pair.map Prod.snd) }

/-- An externally observable call made by `gen_masks`. -/
inductive Event where
  | b0_mean (dwi bval bvec b0_out : PyPath)
  | hd_bet (input output : List Str) (overwrite : Bool)
deriving DecidableEq

def Event.isHdBet : Event → Bool
  | .hd_bet _ _ _ => true
  | _ => false

def Event.isB0Mean : Event → Bool
  | .b0_mean _ _ _ _ => true
  | _ => false

/-- The call sequence of one `gen_masks` run (masks.py lines 85-100): all
`gen_b0_mean` calls, then the single batch `HD_BET.run.run_hd_bet` call.
`exec` gives the order the b0 tasks complete in: the identity for the
sequential branch, and any reordering of the task list for the
`multiprocessing.Pool` branch (the pool is joined before phase 2 starts). -/
def gen_masks_trace (inputs outputs : PyPath) (overwrite : Bool)
    (fs : List PyPath) (ex : PyPath → Bool)
    (exec : List B0Task → List B0Task) : Option (List Event) :=
  (gen_masks_plan inputs outputs overwrite fs ex).map (fun plan =>
    (exec plan.b0_tasks).map (fun t => Event.b0_mean t.1 t.2.1 t.2.2.1 t.2.2.2)
      ++ [Event.hd_bet plan.hd_bet_input plan.hd_bet_output overwrite])

/-- The filesystem effect of one `gen_b0_mean` call, abstractly: the value
written at `b0_out` is a function `compute` of the three input paths (the
input tree is fixed during the b0 phase; writes go to the output tree). -/
def write_b0 {V : Type} (compute : PyPath → PyPath → PyPath → V)
    (st : PyPath → Option V) (t : B0Task) : PyPath → Option V :=
  fun p => if p = t.2.2.2 then some (compute t.1 t.2.1 t.2.2.1) else st p

/-- Execute a list of b0 tasks in the given order, accumulating file writes. -/
def run_b0_tasks {V : Type} (compute : PyPath → PyPath → PyPath → V)
    (tasks : List B0Task) (st : PyPath → Option V) : PyPath → Option V :=
  tasks.foldl (write_b0 compute) st

/-- A loaded 4D NIfTI image: voxel data over a 4th (direction) axis, plus its
spatial transform and header, idealized over `ℚ`. -/
structure Nifti4 (X Y Z N : Nat) (A H : Type) where
  data : Fin X → Fin Y → Fin Z → Fin N → ℚ
  affine : A
  header : H

/-- A written 3D NIfTI image. -/
structure Nifti3 (X Y Z : Nat) (A H : Type) where
  data : Fin X → Fin Y → Fin Z → ℚ
  affine : A
  header : H

/-- numpy boolean-mask selection along the 4th axis: `data[:, :, :, mask]`
keeps, in index order, the direction slices where the mask is true. -/
def selectAxis3 {X Y Z N : Nat} (data : Fin X → Fin Y → Fin Z → Fin N → ℚ)
    (mask : Fin N → Bool) : Fin X → Fin Y → Fin Z → List ℚ :=
  fun x y z => ((List.finRange N).filter (fun i => mask i)).map (data x y z)

/-- numpy `.mean(axis=3)` of the selected stack: sum over the kept slices
divided by their number. -/
def meanAxis3 {X Y Z N : Nat} (data : Fin X → Fin Y → Fin Z → Fin N → ℚ)
    (mask : Fin N → Bool) : Fin X → Fin Y → Fin Z → ℚ :=
  fun x y z => (selectAxis3 data mask x y z).sum / (selectAxis3 data mask x y z).length

/-- Model of `gen_b0_mean` (masks.py lines 26-42), on loaded data: dipy's
`load_nifti`, `read_bvals_bvecs` and `gradient_table` are opaque, so the
loaded image and the gradient table's `b0s_mask` classification are inputs;
the `save_nifti` call is modelled by returning the written image. -/
def gen_b0_mean_model {X Y Z N : Nat} {A H : Type} (img : Nifti4 X Y Z N A H)
    (b0s_mask : Fin N → Bool) : Nifti3 X Y Z A H :=
  { data := meanAxis3 img.data b0s_mask
    affine := img.affine
    header := img.header }

/-! Helper lemmas on the string operations. -/

lemma isPrefixOf_append {α : Type} [BEq α] [LawfulBEq α] (l r : List α) :
    l.isPrefixOf (l ++ r) = true := by
  induction l with
  | nil => simp [List.isPrefixOf]
  | cons a as ih => simp [List.isPrefixOf, ih]

lemma append_drop_of_isPrefixOf {α : Type} [BEq α] [LawfulBEq α] :
    ∀ {l m : List α}, l.isPrefixOf m = true → m = l ++ m.drop l.length := by
  intro l
  induction l with
  | nil => simp
  | cons a as ih =>
    intro m h
    cases m with
    | nil => simp [List.isPrefixOf] at h
    | cons b bs =>
      simp only [List.isPrefixOf, Bool.and_eq_true, beq_iff_eq] at h
      obtain ⟨rfl, h2⟩ := h
      simpa using ih h2

lemma strEndsWith_iff {s t : Str} : strEndsWith s t = true ↔ ∃ u, s = u ++ t := by
  unfold strEndsWith List.isSuffixOf
  constructor
  · intro h
    refine ⟨(s.reverse.drop t.reverse.length).reverse, ?_⟩
    have h2 := congrArg List.reverse (append_drop_of_isPrefixOf h)
    simpa [List.reverse_append] using h2
  · rintro ⟨u, rfl⟩
    rw [List.reverse_append]
    exact isPrefixOf_append _ _

lemma strRemovesuffix_append (u t : Str) : strRemovesuffix (u ++ t) t = u := by
  have h : strEndsWith (u ++ t) t = true := strEndsWith_iff.mpr ⟨u, rfl⟩
  have hl : (u ++ t).length - t.length = u.length := by simp
  rw [strRemovesuffix, if_pos h, hl, List.take_left]

lemma strEndsWith_strRemovesuffix {s a c : Str} (h : strEndsWith s (a ++ c) = true) :
    strEndsWith (strRemovesuffix s c) a = true := by
  obtain ⟨u, rfl⟩ := strEndsWith_iff.mp h
  rw [← List.append_assoc, strRemovesuffix_append]
  exact strEndsWith_iff.mpr ⟨u, rfl⟩

/-- The stem of a file name: what `with_suffix` keeps. -/
def stemName (n : Str) : Str := n.take (n.length - nameSuffixLen n)

lemma withSuffixName_eq (n t : Str) : withSuffixName n t = stemName n ++ t := by
  unfold withSuffixName stemName
  by_cases h : nameSuffixLen n = 0
  · simp [h]
  · simp [h]

lemma nameSuffixLen_eq_zero_of_no_dot {n : Str} (h : '.' ∉ n) : nameSuffixLen n = 0 := by
  unfold nameSuffixLen rfindDot
  have hnone : n.reverse.findIdx? (fun c => c == '.') = none := by
    rw [List.findIdx?_eq_none_iff]
    intro c hc
    simp only [beq_eq_false_iff_ne, ne_eq]
    rintro rfl
    exact h (List.mem_reverse.mp hc)
  rw [hnone]

lemma withSuffixName_no_dot {n : Str} (h : '.' ∉ n) (t : Str) :
    withSuffixName n t = n ++ t := by
  rw [withSuffixName, nameSuffixLen_eq_zero_of_no_dot h]
  simp

/-! Helper lemmas on paths. -/

lemma PyPath.ext' {p q : PyPath} (h : p.parts = q.parts) : p = q := by
  cases p; cases q; cases h; rfl

lemma name_concat (l : List Str) (n : Str) : PyPath.name ⟨l ++ [n]⟩ = n := by
  simp [PyPath.name, List.getLastD_concat]

lemma withName_concat (l : List Str) (n m : Str) :
    PyPath.withName ⟨l ++ [n]⟩ m = ⟨l ++ [m]⟩ := by
  simp [PyPath.withName]

lemma withSuffix_concat (l : List Str) (n t : Str) :
    PyPath.withSuffix ⟨l ++ [n]⟩ t = ⟨l ++ [withSuffixName n t]⟩ := by
  rw [PyPath.withSuffix, name_concat, withName_concat]

lemma relative_to_eq_some_iff {p root rel : PyPath} :
    p.relative_to root = some rel ↔ p.parts = root.parts ++ rel.parts := by
  unfold PyPath.relative_to
  constructor
  · intro h
    split at h
    case isTrue hpre =>
      obtain rfl : rel = ⟨p.parts.drop root.parts.length⟩ := (Option.some.inj h).symm
      exact append_drop_of_isPrefixOf hpre
    case isFalse => exact absurd h (by simp)
  · intro h
    have hpre : root.parts.isPrefixOf p.parts = true := by
      rw [h]; exact isPrefixOf_append _ _
    rw [if_pos hpre]
    congr 1
    cases rel
    congr 1
    rw [h, List.drop_left]

/-! Helper lemmas on list traversals. -/

lemma mapOpt_eq_some_map {α β : Type} {f : α → Option β} {g : α → β} :
    ∀ {l : List α}, (∀ a ∈ l, f a = some (g a)) → mapOpt f l = some (l.map g) := by
  intro l
  induction l with
  | nil => intro _; rfl
  | cons a l ih =>
    intro h
    have ha : f a = some (g a) := h a (List.mem_cons_self a l)
    have hl := ih fun x hx => h x (List.mem_cons_of_mem a hx)
    simp [mapOpt, ha, hl]

lemma exists_of_mem_mapOpt {α β : Type} {f : α → Option β} :
    ∀ {l : List α} {rs : List β}, mapOpt f l = some rs →
      ∀ r ∈ rs, ∃ a ∈ l, f a = some r := by
  intro l
  induction l with
  | nil =>
    intro rs h r hr
    simp only [mapOpt] at h
    obtain rfl : rs = [] := (Option.some.inj h).symm
    simp at hr
  | cons a l ih =>
    intro rs h r hr
    simp only [mapOpt] at h
    cases hfa : f a with
    | none => rw [hfa] at h; simp at h
    | some b =>
      cases hml : mapOpt f l with
      | none => rw [hfa, hml] at h; simp at h
      | some bs =>
        rw [hfa, hml] at h
        obtain rfl : b :: bs = rs := by injection h
        rcases List.mem_cons.mp hr with rfl | hr'
        · exact ⟨a, List.mem_cons_self a l, hfa⟩
        · obtain ⟨x, hx, hfx⟩ := ih hml r hr'
          exact ⟨x, List.mem_cons_of_mem a hx, hfx⟩

lemma filterMap_pair_fst {γ : Type} (rs : List CasePlan)
    (g : CasePlan → Option (γ × γ)) :
    rs.filterMap (fun r => (g r).map Prod.fst)
      = (rs.filterMap g).map Prod.fst := by
  induction rs with
  | nil => rfl
  | cons r rs ih =>
    cases h : g r <;> simp [List.filterMap_cons, h, ih]

lemma filterMap_pair_snd {γ : Type} (rs : List CasePlan)
    (g : CasePlan → Option (γ × γ)) :
    rs.filterMap (fun r => (g r).map Prod.snd)
      = (rs.filterMap g).map Prod.snd := by
  induction rs with
  | nil => rfl
  | cons r rs ih =>
    cases h : g r <;> simp [List.filterMap_cons, h, ih]

lemma exists_map_of_forall_shape {α β : Type} {l : List β} {f : α → β}
    (h : ∀ x ∈ l, ∃ a, x = f a) : ∃ as : List α, l = as.map f := by
  induction l with
  | nil => exact ⟨[], rfl⟩
  | cons x l ih =>
    obtain ⟨a, rfl⟩ := h x (List.mem_cons_self x l)
    obtain ⟨as, rfl⟩ := ih fun y hy => h y (List.mem_cons_of_mem _ hy)
    exact ⟨a :: as, rfl⟩

/-! Characterization of `find_all_cases` and of the planning loop. -/

lemma find_all_cases_eq (root : PyPath) (fs : List PyPath) :
    find_all_cases root fs
      = ((fs.map root.joinpath).filter (fun f => strEndsWith f.name sDwiPattern)).map
          (fun f => f.withName (strRemovesuffix f.name sNiiGz)) := by
  induction fs with
  | nil => rfl
  | cons rel fs ih =>
    by_cases h : strEndsWith (root.joinpath rel).name sDwiPattern
    all_goals
      simp only [find_all_cases, List.filterMap_cons, List.map_cons, List.filter_cons, h]
      simp only [find_all_cases] at ih
      simp [h, ih]

lemma mem_find_all_cases {root : PyPath} {fs : List PyPath} {b : PyPath} :
    b ∈ find_all_cases root fs
      ↔ ∃ rel ∈ fs, strEndsWith (root.joinpath rel).name sDwiPattern = true
          ∧ b = (root.joinpath rel).withName
              (strRemovesuffix (root.joinpath rel).name sNiiGz) := by
  rw [find_all_cases_eq]
  simp only [List.mem_map, List.mem_filter]
  constructor
  · rintro ⟨f, ⟨⟨rel, hrel, rfl⟩, hP⟩, rfl⟩
    exact ⟨rel, hrel, hP, rfl⟩
  · rintro ⟨rel, hrel, hP, rfl⟩
    exact ⟨root.joinpath rel, ⟨⟨rel, hrel, rfl⟩, hP⟩, rfl⟩

/-- Every discovered case base, when all files have a final name component,
has the shape `root ++ dirs ++ [stripped name]`. -/
lemma shape_of_mem_find_all_cases {root : PyPath} {fs : List PyPath} {b : PyPath}
    (hne : ∀ rel ∈ fs, rel.parts ≠ []) (hb : b ∈ find_all_cases root fs) :
    ∃ d n, strEndsWith n sDwiPattern = true
      ∧ (⟨d ++ [n]⟩ : PyPath) ∈ fs
      ∧ b.parts = root.parts ++ (d ++ [strRemovesuffix n sNiiGz]) := by
  obtain ⟨rel, hrel, hP, rfl⟩ := mem_find_all_cases.mp hb
  obtain ⟨d, n, hdn⟩ : ∃ d n, rel.parts = d ++ [n] :=
    ⟨rel.parts.dropLast, rel.parts.getLast (hne rel hrel),
      (List.dropLast_concat_getLast (hne rel hrel)).symm⟩
  have hjoin : (root.joinpath rel).parts = (root.parts ++ d) ++ [n] := by
    simp [PyPath.joinpath, hdn]
  have hj : root.joinpath rel = ⟨(root.parts ++ d) ++ [n]⟩ := PyPath.ext' hjoin
  have hname : (root.joinpath rel).name = n := by rw [hj, name_concat]
  refine ⟨d, n, by rwa [hname] at hP, PyPath.ext' hdn ▸ hrel, ?_⟩
  rw [hname, hj, withName_concat]
  simp

/-- Unfolding of a planning-loop iteration at a base of the discovered shape. -/
lemma process_case_of_shape (inputs outputs : PyPath) (overwrite : Bool)
    (ex : PyPath → Bool) (d : List Str) (m : Str) :
    process_case inputs outputs overwrite ex ⟨inputs.parts ++ (d ++ [m])⟩
      = some
          { b0_task :=
              if overwrite || !ex (case_b0_out ⟨outputs.parts ++ (d ++ [m])⟩) then
                some (case_dwi ⟨inputs.parts ++ (d ++ [m])⟩,
                  case_bval ⟨inputs.parts ++ (d ++ [m])⟩,
                  case_bvec ⟨inputs.parts ++ (d ++ [m])⟩,
                  case_b0_out ⟨outputs.parts ++ (d ++ [m])⟩)
              else none
            mask_pair :=
              if overwrite || !ex (case_mask_out_real ⟨outputs.parts ++ (d ++ [m])⟩) then
                some ((case_b0_out ⟨outputs.parts ++ (d ++ [m])⟩).toStr,
                  (case_mask_out ⟨outputs.parts ++ (d ++ [m])⟩).toStr)
              else none } := by
  have hrel : PyPath.relative_to ⟨inputs.parts ++ (d ++ [m])⟩ inputs = some ⟨d ++ [m]⟩ :=
    relative_to_eq_some_iff.mpr rfl
  rw [process_case, hrel]
  rfl

lemma name_withName (p : PyPath) (n : Str) : (p.withName n).name = n := by
  simp [PyPath.withName, PyPath.name, List.getLastD_concat]

lemma sDwiPattern_eq : sDwiPattern = sDwi ++ sNiiGz := by decide

/-- C1: for every input root, `find_all_cases` yields exactly one value per
file at any depth under the root whose name matches `*_dwi.nii.gz` — namely
that path with the literal `.nii.gz` suffix removed from its filename, whose
name therefore still ends in `_dwi`; non-matching files yield nothing, and a
tree with no matches yields the empty sequence. -/
theorem find_all_cases_correct (root : PyPath) (fs : List PyPath) :
    find_all_cases root fs
        = ((fs.map root.joinpath).filter (fun f => strEndsWith f.name sDwiPattern)).map
            (fun f => f.withName (strRemovesuffix f.name sNiiGz))
      ∧ (∀ b ∈ find_all_cases root fs, strEndsWith b.name sDwi = true)
      ∧ ((∀ rel ∈ fs, strEndsWith (root.joinpath rel).name sDwiPattern = false) →
          find_all_cases root fs = []) := by
  refine ⟨find_all_cases_eq root fs, ?_, ?_⟩
  · intro b hb
    obtain ⟨rel, _, hP, rfl⟩ := mem_find_all_cases.mp hb
    rw [name_withName]
    rw [sDwiPattern_eq] at hP
    exact strEndsWith_strRemovesuffix hP
  · intro hall
    rw [find_all_cases_eq]
    have : (fs.map root.joinpath).filter (fun f => strEndsWith f.name sDwiPattern) = [] := by
      rw [List.filter_eq_nil_iff]
      rintro f hf
      obtain ⟨rel, hrel, rfl⟩ := List.mem_map.mp hf
      simp [hall rel hrel]
    rw [this, List.map_nil]

/-- Witness for C1: a matching file yields a base still ending in `_dwi`; a
tree without matches yields nothing. -/
theorem find_all_cases_correct_witness :
    strEndsWith (PyPath.name ⟨["a".data, "b_dwi".data]⟩) sDwi = true
      ∧ find_all_cases ⟨[]⟩ [⟨["a.txt".data]⟩] = [] := by
  constructor
  · exact (find_all_cases_correct ⟨[]⟩ [⟨["a".data, "b_dwi.nii.gz".data]⟩]).2.1
      ⟨["a".data, "b_dwi".data]⟩ (by decide)
  · exact (find_all_cases_correct ⟨[]⟩ [⟨["a.txt".data]⟩]).2.2 (by decide)

/-- Counterexample to C2 as stated: for the discovered base `foo.bar_dwi`
(from the matched file `foo.bar_dwi.nii.gz`, whose stem contains a dot),
`base.with_suffix(".nii.gz")` replaces from the last dot of the name, so the
derived dwi path is `foo.nii.gz`, not the originally matched file. -/
theorem case_paths_dotted_counterexample :
    (⟨["foo.bar_dwi".data]⟩ : PyPath)
        ∈ find_all_cases ⟨[]⟩ [⟨["foo.bar_dwi.nii.gz".data]⟩]
      ∧ case_dwi ⟨["foo.bar_dwi".data]⟩ ≠ ⟨["foo.bar_dwi.nii.gz".data]⟩
      ∧ (case_dwi ⟨["foo.bar_dwi".data]⟩).name
          ≠ PyPath.name ⟨["foo.bar_dwi".data]⟩ ++ sNiiGz
      ∧ case_dwi ⟨["foo.bar_dwi".data]⟩ = ⟨["foo.nii.gz".data]⟩ := by
  exact ⟨by decide, by decide, by decide, by decide⟩

/-- C2 (amended): for every discovered case base whose filename contains no
dot, `gen_masks` derives the gradient-metadata paths by appending to the
shared dwi base name: the dwi path is `<base>.nii.gz` and equals the
originally matched file, the bval path is `<base>.bval`, the bvec path is
`<base>.bvec`.  (For a base whose stem contains a dot, `with_suffix` instead
replaces from the last dot — see the counterexample.) -/
theorem case_paths_suffix_swap (root : PyPath) (fs : List PyPath) (b : PyPath)
    (hne : ∀ rel ∈ fs, rel.parts ≠ [])
    (hb : b ∈ find_all_cases root fs) (hdot : '.' ∉ b.name) :
    (case_dwi b).parts = b.parts.dropLast ++ [b.name ++ sNiiGz]
      ∧ (case_bval b).parts = b.parts.dropLast ++ [b.name ++ sBval]
      ∧ (case_bvec b).parts = b.parts.dropLast ++ [b.name ++ sBvec]
      ∧ ∃ rel ∈ fs, strEndsWith (root.joinpath rel).name sDwiPattern = true
          ∧ root.joinpath rel = case_dwi b := by
  obtain ⟨d, n, hP, hmem, hbp⟩ := shape_of_mem_find_all_cases hne hb
  have hb' : b = ⟨(root.parts ++ d) ++ [strRemovesuffix n sNiiGz]⟩ :=
    PyPath.ext' (by simpa using hbp)
  subst hb'
  set m := strRemovesuffix n sNiiGz with hm
  have hname : PyPath.name ⟨(root.parts ++ d) ++ [m]⟩ = m := name_concat _ _
  rw [hname] at hdot ⊢
  have hdrop : (⟨(root.parts ++ d) ++ [m]⟩ : PyPath).parts.dropLast = root.parts ++ d := by
    simp
  refine ⟨?_, ?_, ?_, ?_⟩
  · rw [case_dwi, withSuffix_concat, withSuffixName_no_dot hdot, hdrop]
  · rw [case_bval, withSuffix_concat, withSuffixName_no_dot hdot, hdrop]
  · rw [case_bvec, withSuffix_concat, withSuffixName_no_dot hdot, hdrop]
  · refine ⟨⟨d ++ [n]⟩, hmem, ?_, ?_⟩
    · have : root.joinpath ⟨d ++ [n]⟩ = ⟨(root.parts ++ d) ++ [n]⟩ := by
        apply PyPath.ext'; simp [PyPath.joinpath]
      rw [this, name_concat]
      exact hP
    · obtain ⟨u, hu⟩ := strEndsWith_iff.mp hP
      have hn : n = u ++ sDwi ++ sNiiGz := by
        rw [hu, sDwiPattern_eq, List.append_assoc]
      have hmu : m = u ++ sDwi := by rw [hm, hn, strRemovesuffix_append]
      apply PyPath.ext'
      rw [case_dwi, withSuffix_concat, withSuffixName_no_dot hdot]
      simp [PyPath.joinpath, hmu, hn]

/-- Witness for C2 (amended) at the dot-free base `a_dwi`. -/
theorem case_paths_suffix_swap_witness :
    (case_dwi ⟨["a_dwi".data]⟩).parts
        = (⟨["a_dwi".data]⟩ : PyPath).parts.dropLast
            ++ [PyPath.name ⟨["a_dwi".data]⟩ ++ sNiiGz]
      ∧ (case_bval ⟨["a_dwi".data]⟩).parts
          = (⟨["a_dwi".data]⟩ : PyPath).parts.dropLast
              ++ [PyPath.name ⟨["a_dwi".data]⟩ ++ sBval]
      ∧ (case_bvec ⟨["a_dwi".data]⟩).parts
          = (⟨["a_dwi".data]⟩ : PyPath).parts.dropLast
              ++ [PyPath.name ⟨["a_dwi".data]⟩ ++ sBvec]
      ∧ ∃ rel ∈ [(⟨["a_dwi.nii.gz".data]⟩ : PyPath)],
          strEndsWith (PyPath.joinpath ⟨[]⟩ rel).name sDwiPattern = true
            ∧ PyPath.joinpath ⟨[]⟩ rel = case_dwi ⟨["a_dwi".data]⟩ :=
  case_paths_suffix_swap ⟨[]⟩ [⟨["a_dwi.nii.gz".data]⟩] ⟨["a_dwi".data]⟩
    (by decide) (by decide) (by decide)

/-- C3: each iteration of the planning loop adds a b0-mean task iff
`overwrite` is set or the case's b0 output does not exist, and adds the
HD_BET (input, output) pair iff `overwrite` is set or the case's real
`_mask.nii.gz` output does not exist; the two gates are independent, and the
added entries are the case's derived paths. -/
theorem process_case_gating (inputs outputs : PyPath) (overwrite : Bool)
    (ex : PyPath → Bool) (base rel : PyPath)
    (h : base.relative_to inputs = some rel) :
    ∃ r, process_case inputs outputs overwrite ex base = some r
      ∧ r.b0_task.isSome = (overwrite || !ex (case_b0_out (outputs.joinpath rel)))
      ∧ r.mask_pair.isSome
          = (overwrite || !ex (case_mask_out_real (outputs.joinpath rel)))
      ∧ (∀ t, r.b0_task = some t →
          t = (case_dwi base, case_bval base, case_bvec base,
            case_b0_out (outputs.joinpath rel)))
      ∧ (∀ pr, r.mask_pair = some pr →
          pr = ((case_b0_out (outputs.joinpath rel)).toStr,
            (case_mask_out (outputs.joinpath rel)).toStr)) := by
  refine ⟨⟨if overwrite || !ex (case_b0_out (outputs.joinpath rel)) then
        some (case_dwi base, case_bval base, case_bvec base,
          case_b0_out (outputs.joinpath rel))
      else none,
      if overwrite || !ex (case_mask_out_real (outputs.joinpath rel)) then
        some ((case_b0_out (outputs.joinpath rel)).toStr,
          (case_mask_out (outputs.joinpath rel)).toStr)
      else none⟩, ?_, ?_, ?_, ?_, ?_⟩
  · rw [process_case, h]
  · cases hc : overwrite || !ex (case_b0_out (outputs.joinpath rel)) <;> simp [hc]
  · cases hc : overwrite || !ex (case_mask_out_real (outputs.joinpath rel)) <;> simp [hc]
  · intro t ht
    cases hc : overwrite || !ex (case_b0_out (outputs.joinpath rel)) <;> simp [hc] at ht
    exact ht.symm
  · intro pr hpr
    cases hc : overwrite || !ex (case_mask_out_real (outputs.joinpath rel)) <;>
      simp [hc] at hpr
    exact hpr.symm

/-- Witness for C3 at a concrete case with `overwrite` unset and no existing
outputs. -/
theorem process_case_gating_witness :
    ∃ r, process_case ⟨["in".data]⟩ ⟨["out".data]⟩ false (fun _ => false)
          ⟨["in".data, "a_dwi".data]⟩ = some r
      ∧ r.b0_task.isSome
          = (false || !(fun _ : PyPath => false)
              (case_b0_out (PyPath.joinpath ⟨["out".data]⟩ ⟨["a_dwi".data]⟩)))
      ∧ r.mask_pair.isSome
          = (false || !(fun _ : PyPath => false)
              (case_mask_out_real (PyPath.joinpath ⟨["out".data]⟩ ⟨["a_dwi".data]⟩)))
      ∧ (∀ t, r.b0_task = some t →
          t = (case_dwi ⟨["in".data, "a_dwi".data]⟩,
            case_bval ⟨["in".data, "a_dwi".data]⟩,
            case_bvec ⟨["in".data, "a_dwi".data]⟩,
            case_b0_out (PyPath.joinpath ⟨["out".data]⟩ ⟨["a_dwi".data]⟩)))
      ∧ (∀ pr, r.mask_pair = some pr →
          pr = ((case_b0_out (PyPath.joinpath ⟨["out".data]⟩ ⟨["a_dwi".data]⟩)).toStr,
            (case_mask_out (PyPath.joinpath ⟨["out".data]⟩ ⟨["a_dwi".data]⟩)).toStr)) :=
  process_case_gating ⟨["in".data]⟩ ⟨["out".data]⟩ false (fun _ => false)
    ⟨["in".data, "a_dwi".data]⟩ ⟨["a_dwi".data]⟩ (by decide)

lemma filterMap_some_comp {α β : Type} (l : List α) (f : α → β) :
    l.filterMap (fun a => some (f a)) = l.map f := by
  induction l with
  | nil => rfl
  | cons a l ih => simp [List.filterMap_cons, ih]

lemma joinpath_rel (outputs : PyPath) (d : List Str) (m : Str) :
    outputs.joinpath ⟨d ++ [m]⟩ = ⟨outputs.parts ++ (d ++ [m])⟩ := rfl

/-- The root-relative part of a path that lies under `inputs`. -/
def relUnder (inputs b : PyPath) : PyPath := ⟨b.parts.drop inputs.parts.length⟩

/-- C4: a second `gen_masks` run with `overwrite` unset, when every case's b0
output and real mask output already exist (nothing changed since the first
run), builds an empty b0 task list and empty HD_BET input/output lists: it
performs zero `gen_b0_mean` calls and invokes the extraction model with empty
lists. -/
theorem gen_masks_idempotent (inputs outputs : PyPath) (fs : List PyPath)
    (ex : PyPath → Bool) (hne : ∀ rel ∈ fs, rel.parts ≠ [])
    (hdone : ∀ b ∈ find_all_cases inputs fs, ∀ rel, b.relative_to inputs = some rel →
        ex (case_b0_out (outputs.joinpath rel)) = true
          ∧ ex (case_mask_out_real (outputs.joinpath rel)) = true) :
    gen_masks_plan inputs outputs false fs ex = some ⟨[], [], []⟩
      ∧ gen_masks_trace inputs outputs false fs ex id
          = some [Event.hd_bet [] [] false] := by
  have hmap : mapOpt (process_case inputs outputs false ex) (find_all_cases inputs fs)
      = some ((find_all_cases inputs fs).map fun _ => (⟨none, none⟩ : CasePlan)) := by
    apply mapOpt_eq_some_map
    intro b hb
    obtain ⟨d, n, _, _, hbp⟩ := shape_of_mem_find_all_cases hne hb
    have hb' : b = ⟨inputs.parts ++ (d ++ [strRemovesuffix n sNiiGz])⟩ := PyPath.ext' hbp
    subst hb'
    have hrel : PyPath.relative_to ⟨inputs.parts ++ (d ++ [strRemovesuffix n sNiiGz])⟩ inputs
        = some ⟨d ++ [strRemovesuffix n sNiiGz]⟩ := relative_to_eq_some_iff.mpr rfl
    obtain ⟨hex1, hex2⟩ := hdone _ hb _ hrel
    rw [joinpath_rel] at hex1 hex2
    rw [process_case_of_shape]
    simp [hex1, hex2]
  have hplan : gen_masks_plan inputs outputs false fs ex = some ⟨[], [], []⟩ := by
    rw [gen_masks_plan, hmap]
    simp [List.filterMap_map, Function.comp]
  refine ⟨hplan, ?_⟩
  rw [gen_masks_trace, hplan]
  rfl

/-- Witness for C4: with one case and all outputs present, the second run's
plan is empty and the model is invoked with empty lists. -/
theorem gen_masks_idempotent_witness :
    gen_masks_plan ⟨["in".data]⟩ ⟨["out".data]⟩ false [⟨["a_dwi.nii.gz".data]⟩]
        (fun _ => true) = some ⟨[], [], []⟩
      ∧ gen_masks_trace ⟨["in".data]⟩ ⟨["out".data]⟩ false [⟨["a_dwi.nii.gz".data]⟩]
          (fun _ => true) id = some [Event.hd_bet [] [] false] :=
  gen_masks_idempotent ⟨["in".data]⟩ ⟨["out".data]⟩ [⟨["a_dwi.nii.gz".data]⟩]
    (fun _ => true) (by decide) (fun _ _ _ _ => ⟨rfl, rfl⟩)

/-- C5: with `overwrite` set, every discovered case appears in the b0 task
list and contributes one entry to each HD_BET list, whatever already exists:
all three lists have one entry per discovered case, and each case's derived
entries are present. -/
theorem gen_masks_overwrite_all (inputs outputs : PyPath) (fs : List PyPath)
    (ex : PyPath → Bool) (hne : ∀ rel ∈ fs, rel.parts ≠ []) :
    ∃ plan, gen_masks_plan inputs outputs true fs ex = some plan
      ∧ plan.b0_tasks.length = (find_all_cases inputs fs).length
      ∧ plan.hd_bet_input.length = (find_all_cases inputs fs).length
      ∧ plan.hd_bet_output.length = (find_all_cases inputs fs).length
      ∧ ∀ b ∈ find_all_cases inputs fs, ∀ rel, b.relative_to inputs = some rel →
          ((case_dwi b, case_bval b, case_bvec b, case_b0_out (outputs.joinpath rel))
              ∈ plan.b0_tasks
            ∧ (case_b0_out (outputs.joinpath rel)).toStr ∈ plan.hd_bet_input
            ∧ (case_mask_out (outputs.joinpath rel)).toStr ∈ plan.hd_bet_output) := by
  have hmap : mapOpt (process_case inputs outputs true ex) (find_all_cases inputs fs)
      = some ((find_all_cases inputs fs).map (fun b =>
          (⟨some (case_dwi b, case_bval b, case_bvec b,
              case_b0_out (outputs.joinpath (relUnder inputs b))),
            some ((case_b0_out (outputs.joinpath (relUnder inputs b))).toStr,
              (case_mask_out (outputs.joinpath (relUnder inputs b))).toStr)⟩ : CasePlan))) := by
    apply mapOpt_eq_some_map
    intro b hb
    obtain ⟨d, n, _, _, hbp⟩ := shape_of_mem_find_all_cases hne hb
    have hb' : b = ⟨inputs.parts ++ (d ++ [strRemovesuffix n sNiiGz])⟩ := PyPath.ext' hbp
    subst hb'
    have hro : relUnder inputs ⟨inputs.parts ++ (d ++ [strRemovesuffix n sNiiGz])⟩
        = ⟨d ++ [strRemovesuffix n sNiiGz]⟩ := PyPath.ext' (List.drop_left _ _)
    rw [process_case_of_shape]
    simp [hro, joinpath_rel]
  refine ⟨⟨(find_all_cases inputs fs).map (fun b => (case_dwi b, case_bval b, case_bvec b,
      case_b0_out (outputs.joinpath (relUnder inputs b)))),
    (find_all_cases inputs fs).map
      (fun b => (case_b0_out (outputs.joinpath (relUnder inputs b))).toStr),
    (find_all_cases inputs fs).map
      (fun b => (case_mask_out (outputs.joinpath (relUnder inputs b))).toStr)⟩,
    ?_, by simp, by simp, by simp, ?_⟩
  · rw [gen_masks_plan, hmap]
    have h1 : List.filterMap (fun r => r.b0_task)
        (List.map (fun b =>
          (⟨some (case_dwi b, case_bval b, case_bvec b,
              case_b0_out (outputs.joinpath (relUnder inputs b))),
            some ((case_b0_out (outputs.joinpath (relUnder inputs b))).toStr,
              (case_mask_out (outputs.joinpath (relUnder inputs b))).toStr)⟩ : CasePlan))
          (find_all_cases inputs fs))
        = (find_all_cases inputs fs).map (fun b => (case_dwi b, case_bval b, case_bvec b,
            case_b0_out (outputs.joinpath (relUnder inputs b)))) := by
      rw [List.filterMap_map]
      exact filterMap_some_comp _ _
    have h2 : List.filterMap (fun r => r.mask_pair.map Prod.fst)
        (List.map (fun b =>
          (⟨some (case_dwi b, case_bval b, case_bvec b,
              case_b0_out (outputs.joinpath (relUnder inputs b))),
            some ((case_b0_out (outputs.joinpath (relUnder inputs b))).toStr,
              (case_mask_out (outputs.joinpath (relUnder inputs b))).toStr)⟩ : CasePlan))
          (find_all_cases inputs fs))
        = (find_all_cases inputs fs).map
            (fun b => (case_b0_out (outputs.joinpath (relUnder inputs b))).toStr) := by
      rw [List.filterMap_map]
      exact filterMap_some_comp _ _
    have h3 : List.filterMap (fun r => r.mask_pair.map Prod.snd)
        (List.map (fun b =>
          (⟨some (case_dwi b, case_bval b, case_bvec b,
              case_b0_out (outputs.joinpath (relUnder inputs b))),
            some ((case_b0_out (outputs.joinpath (relUnder inputs b))).toStr,
              (case_mask_out (outputs.joinpath (relUnder inputs b))).toStr)⟩ : CasePlan))
          (find_all_cases inputs fs))
        = (find_all_cases inputs fs).map
            (fun b => (case_mask_out (outputs.joinpath (relUnder inputs b))).toStr) := by
      rw [List.filterMap_map]
      exact filterMap_some_comp _ _
    dsimp only
    rw [h1, h2, h3]
  · intro b hb rel hrel
    have hr : rel = relUnder inputs b := by
      have hbp := relative_to_eq_some_iff.mp hrel
      apply PyPath.ext'
      show rel.parts = List.drop inputs.parts.length b.parts
      rw [hbp, List.drop_left]
    subst hr
    exact ⟨List.mem_map.mpr ⟨b, hb, rfl⟩, List.mem_map.mpr ⟨b, hb, rfl⟩,
      List.mem_map.mpr ⟨b, hb, rfl⟩⟩

/-- Witness for C5 at a one-case tree with every output already existing. -/
theorem gen_masks_overwrite_all_witness :
    ∃ plan, gen_masks_plan ⟨["in".data]⟩ ⟨["out".data]⟩ true [⟨["a_dwi.nii.gz".data]⟩]
        (fun _ => true) = some plan
      ∧ plan.b0_tasks.length
          = (find_all_cases ⟨["in".data]⟩ [⟨["a_dwi.nii.gz".data]⟩]).length
      ∧ plan.hd_bet_input.length
          = (find_all_cases ⟨["in".data]⟩ [⟨["a_dwi.nii.gz".data]⟩]).length
      ∧ plan.hd_bet_output.length
          = (find_all_cases ⟨["in".data]⟩ [⟨["a_dwi.nii.gz".data]⟩]).length
      ∧ ∀ b ∈ find_all_cases ⟨["in".data]⟩ [⟨["a_dwi.nii.gz".data]⟩],
          ∀ rel, b.relative_to ⟨["in".data]⟩ = some rel →
          ((case_dwi b, case_bval b, case_bvec b,
              case_b0_out (PyPath.joinpath ⟨["out".data]⟩ rel)) ∈ plan.b0_tasks
            ∧ (case_b0_out (PyPath.joinpath ⟨["out".data]⟩ rel)).toStr ∈ plan.hd_bet_input
            ∧ (case_mask_out (PyPath.joinpath ⟨["out".data]⟩ rel)).toStr
                ∈ plan.hd_bet_output) :=
  gen_masks_overwrite_all ⟨["in".data]⟩ ⟨["out".data]⟩ [⟨["a_dwi.nii.gz".data]⟩]
    (fun _ => true) (by decide)

/-- Any pair the planning loop appends is the b0-output string and the
nominal mask-output string of one shared `base_out`. -/
lemma mask_pair_shape {inputs outputs : PyPath} {overwrite : Bool}
    {ex : PyPath → Bool} {base : PyPath} {r : CasePlan}
    (h : process_case inputs outputs overwrite ex base = some r) :
    ∀ pr, r.mask_pair = some pr →
      ∃ bo, pr = ((case_b0_out bo).toStr, (case_mask_out bo).toStr) := by
  intro pr hpr
  unfold process_case at h
  cases hrel : base.relative_to inputs with
  | none => rw [hrel] at h; exact absurd h (by simp)
  | some rel =>
    rw [hrel] at h
    obtain rfl := (Option.some.inj h).symm
    refine ⟨outputs.joinpath rel, ?_⟩
    dsimp only at hpr
    cases hc : overwrite || !ex (case_mask_out_real (outputs.joinpath rel)) <;>
      simp [hc] at hpr
    exact hpr.symm

/-- C10: when the batch extraction model is called, the accumulated input and
output lists have equal length, and they are index-aligned projections of one
list of per-case `base_out` paths: the i-th input is that case's b0 output
string and the i-th output is that case's nominal mask output string. -/
theorem hd_bet_lists_aligned (inputs outputs : PyPath) (overwrite : Bool)
    (fs : List PyPath) (ex : PyPath → Bool) (plan : GenMasksPlan)
    (hp : gen_masks_plan inputs outputs overwrite fs ex = some plan) :
    plan.hd_bet_input.length = plan.hd_bet_output.length
      ∧ ∃ bos : List PyPath,
          plan.hd_bet_input = bos.map (fun bo => (case_b0_out bo).toStr)
            ∧ plan.hd_bet_output = bos.map (fun bo => (case_mask_out bo).toStr) := by
  unfold gen_masks_plan at hp
  cases hmo : mapOpt (process_case inputs outputs overwrite ex) (find_all_cases inputs fs) with
  | none => rw [hmo] at hp; exact absurd hp (by simp)
  | some rs =>
    rw [hmo] at hp
    obtain rfl := (Option.some.inj hp).symm
    have hfst : rs.filterMap (fun r => r.mask_pair.map Prod.fst)
        = (rs.filterMap (fun r => r.mask_pair)).map Prod.fst :=
      filterMap_pair_fst rs _
    have hsnd : rs.filterMap (fun r => r.mask_pair.map Prod.snd)
        = (rs.filterMap (fun r => r.mask_pair)).map Prod.snd :=
      filterMap_pair_snd rs _
    have hshape : ∀ pr ∈ rs.filterMap (fun r => r.mask_pair),
        ∃ bo, pr = ((case_b0_out bo).toStr, (case_mask_out bo).toStr) := by
      intro pr hpr
      obtain ⟨r, hr, hrp⟩ := List.mem_filterMap.mp hpr
      obtain ⟨b, hb, hpc⟩ := exists_of_mem_mapOpt hmo r hr
      exact mask_pair_shape hpc pr hrp
    obtain ⟨bos, hbos⟩ := exists_map_of_forall_shape hshape
    refine ⟨?_, bos, ?_, ?_⟩
    · dsimp only
      rw [hfst, hsnd]
      simp
    · dsimp only
      rw [hfst, hbos, List.map_map]
      rfl
    · dsimp only
      rw [hsnd, hbos, List.map_map]
      rfl

/-- Witness for C10 at a concrete one-case plan. -/
theorem hd_bet_lists_aligned_witness :
    (GenMasksPlan.hd_bet_input ⟨[(⟨["in".data, "a_dwi.nii.gz".data]⟩,
          ⟨["in".data, "a_dwi.bval".data]⟩, ⟨["in".data, "a_dwi.bvec".data]⟩,
          ⟨["out".data, "a_dwi.b0.nii.gz".data]⟩)],
        [(⟨["out".data, "a_dwi.b0.nii.gz".data]⟩ : PyPath).toStr],
        [(⟨["out".data, "a_dwi.nii.gz".data]⟩ : PyPath).toStr]⟩).length
        = (GenMasksPlan.hd_bet_output ⟨[(⟨["in".data, "a_dwi.nii.gz".data]⟩,
            ⟨["in".data, "a_dwi.bval".data]⟩, ⟨["in".data, "a_dwi.bvec".data]⟩,
            ⟨["out".data, "a_dwi.b0.nii.gz".data]⟩)],
          [(⟨["out".data, "a_dwi.b0.nii.gz".data]⟩ : PyPath).toStr],
          [(⟨["out".data, "a_dwi.nii.gz".data]⟩ : PyPath).toStr]⟩).length
      ∧ ∃ bos : List PyPath,
          GenMasksPlan.hd_bet_input ⟨[(⟨["in".data, "a_dwi.nii.gz".data]⟩,
              ⟨["in".data, "a_dwi.bval".data]⟩, ⟨["in".data, "a_dwi.bvec".data]⟩,
              ⟨["out".data, "a_dwi.b0.nii.gz".data]⟩)],
            [(⟨["out".data, "a_dwi.b0.nii.gz".data]⟩ : PyPath).toStr],
            [(⟨["out".data, "a_dwi.nii.gz".data]⟩ : PyPath).toStr]⟩
              = bos.map (fun bo => (case_b0_out bo).toStr)
            ∧ GenMasksPlan.hd_bet_output ⟨[(⟨["in".data, "a_dwi.nii.gz".data]⟩,
                ⟨["in".data, "a_dwi.bval".data]⟩, ⟨["in".data, "a_dwi.bvec".data]⟩,
                ⟨["out".data, "a_dwi.b0.nii.gz".data]⟩)],
              [(⟨["out".data, "a_dwi.b0.nii.gz".data]⟩ : PyPath).toStr],
              [(⟨["out".data, "a_dwi.nii.gz".data]⟩ : PyPath).toStr]⟩
                = bos.map (fun bo => (case_mask_out bo).toStr) :=
  hd_bet_lists_aligned ⟨["in".data]⟩ ⟨["out".data]⟩ false [⟨["a_dwi.nii.gz".data]⟩]
    (fun _ => false) _ (by decide)

lemma dropLast_withName (p : PyPath) (n : Str) :
    (p.withName n).parts.dropLast = p.parts.dropLast := by
  simp [PyPath.withName]

lemma dropLast_withSuffix (p : PyPath) (t : Str) :
    (p.withSuffix t).parts.dropLast = p.parts.dropLast :=
  dropLast_withName p _

/-- C6: output paths mirror the case's root-relative path under the output
root.  Generally, each derived output lives in the mirrored directory
`outputs ++ rel.dirs`; concretely, for input case `root/sub1/ses1/foo_dwi`
and output root `out`, the b0 output is `out/sub1/ses1/foo_dwi.b0.nii.gz`,
the nominal mask output is `out/sub1/ses1/foo_dwi.nii.gz`, and the real mask
output is `out/sub1/ses1/foo_dwi_mask.nii.gz`. -/
theorem gen_masks_output_mirroring (inputs outputs : PyPath) (fs : List PyPath)
    (hne : ∀ rel ∈ fs, rel.parts ≠ []) :
    (∀ b ∈ find_all_cases inputs fs, ∀ rel, b.relative_to inputs = some rel →
        b.parts = inputs.parts ++ rel.parts
          ∧ (case_b0_out (outputs.joinpath rel)).parts.dropLast
              = outputs.parts ++ rel.parts.dropLast
          ∧ (case_mask_out (outputs.joinpath rel)).parts.dropLast
              = outputs.parts ++ rel.parts.dropLast
          ∧ (case_mask_out_real (outputs.joinpath rel)).parts.dropLast
              = outputs.parts ++ rel.parts.dropLast)
      ∧ (find_all_cases ⟨["root".data]⟩
            [⟨["sub1".data, "ses1".data, "foo_dwi.nii.gz".data]⟩]
            = [⟨["root".data, "sub1".data, "ses1".data, "foo_dwi".data]⟩]
          ∧ PyPath.relative_to
              ⟨["root".data, "sub1".data, "ses1".data, "foo_dwi".data]⟩ ⟨["root".data]⟩
              = some ⟨["sub1".data, "ses1".data, "foo_dwi".data]⟩
          ∧ case_b0_out (PyPath.joinpath ⟨["out".data]⟩
                ⟨["sub1".data, "ses1".data, "foo_dwi".data]⟩)
              = ⟨["out".data, "sub1".data, "ses1".data, "foo_dwi.b0.nii.gz".data]⟩
          ∧ case_mask_out (PyPath.joinpath ⟨["out".data]⟩
                ⟨["sub1".data, "ses1".data, "foo_dwi".data]⟩)
              = ⟨["out".data, "sub1".data, "ses1".data, "foo_dwi.nii.gz".data]⟩
          ∧ case_mask_out_real (PyPath.joinpath ⟨["out".data]⟩
                ⟨["sub1".data, "ses1".data, "foo_dwi".data]⟩)
              = ⟨["out".data, "sub1".data, "ses1".data, "foo_dwi_mask.nii.gz".data]⟩) := by
  constructor
  · intro b hb rel hrel
    obtain ⟨d, n, _, _, hbp⟩ := shape_of_mem_find_all_cases hne hb
    have hbrel := relative_to_eq_some_iff.mp hrel
    have hrelp : rel.parts = d ++ [strRemovesuffix n sNiiGz] :=
      List.append_cancel_left (hbrel.symm.trans hbp)
    refine ⟨hbrel, ?_, ?_, ?_⟩
    · rw [case_b0_out, dropLast_withSuffix]
      show (outputs.parts ++ rel.parts).dropLast = outputs.parts ++ rel.parts.dropLast
      rw [hrelp, ← List.append_assoc, List.dropLast_concat, List.dropLast_concat]
    · rw [case_mask_out, dropLast_withSuffix]
      show (outputs.parts ++ rel.parts).dropLast = outputs.parts ++ rel.parts.dropLast
      rw [hrelp, ← List.append_assoc, List.dropLast_concat, List.dropLast_concat]
    · rw [case_mask_out_real, dropLast_withName]
      show (outputs.parts ++ rel.parts).dropLast = outputs.parts ++ rel.parts.dropLast
      rw [hrelp, ← List.append_assoc, List.dropLast_concat, List.dropLast_concat]
  · exact ⟨by decide, by decide, by decide, by decide, by decide⟩

/-- Witness for C6: the general mirroring conjunct applied at the concrete
case of the spec's example. -/
theorem gen_masks_output_mirroring_witness :
    (⟨["root".data, "sub1".data, "ses1".data, "foo_dwi".data]⟩ : PyPath).parts
        = (⟨["root".data]⟩ : PyPath).parts
            ++ (⟨["sub1".data, "ses1".data, "foo_dwi".data]⟩ : PyPath).parts
      ∧ (case_b0_out (PyPath.joinpath ⟨["out".data]⟩
            ⟨["sub1".data, "ses1".data, "foo_dwi".data]⟩)).parts.dropLast
          = (⟨["out".data]⟩ : PyPath).parts
              ++ (⟨["sub1".data, "ses1".data, "foo_dwi".data]⟩ : PyPath).parts.dropLast
      ∧ (case_mask_out (PyPath.joinpath ⟨["out".data]⟩
            ⟨["sub1".data, "ses1".data, "foo_dwi".data]⟩)).parts.dropLast
          = (⟨["out".data]⟩ : PyPath).parts
              ++ (⟨["sub1".data, "ses1".data, "foo_dwi".data]⟩ : PyPath).parts.dropLast
      ∧ (case_mask_out_real (PyPath.joinpath ⟨["out".data]⟩
            ⟨["sub1".data, "ses1".data, "foo_dwi".data]⟩)).parts.dropLast
          = (⟨["out".data]⟩ : PyPath).parts
              ++ (⟨["sub1".data, "ses1".data, "foo_dwi".data]⟩ : PyPath).parts.dropLast :=
  (gen_masks_output_mirroring ⟨["root".data]⟩ ⟨["out".data]⟩
      [⟨["sub1".data, "ses1".data, "foo_dwi.nii.gz".data]⟩] (by decide)).1
    ⟨["root".data, "sub1".data, "ses1".data, "foo_dwi".data]⟩ (by decide)
    ⟨["sub1".data, "ses1".data, "foo_dwi".data]⟩ (by decide)

/-- C7: in every run (sequential, or pooled in any completion order), the
trace is all `gen_b0_mean` calls followed by exactly one batch
`run_hd_bet` call carrying the full accumulated lists and the run's
`overwrite` flag; every planned b0 task is run before that call. -/
theorem gen_masks_phase_order (inputs outputs : PyPath) (overwrite : Bool)
    (fs : List PyPath) (ex : PyPath → Bool) (exec : List B0Task → List B0Task)
    (hexec : ∀ l : List B0Task, (exec l).Perm l) (evs : List Event)
    (hm : gen_masks_trace inputs outputs overwrite fs ex exec = some evs) :
    ∃ plan pre, gen_masks_plan inputs outputs overwrite fs ex = some plan
      ∧ evs = pre ++ [Event.hd_bet plan.hd_bet_input plan.hd_bet_output overwrite]
      ∧ (∀ e ∈ pre, e.isB0Mean = true)
      ∧ (∀ e ∈ pre, e.isHdBet = false)
      ∧ (∀ t ∈ plan.b0_tasks, Event.b0_mean t.1 t.2.1 t.2.2.1 t.2.2.2 ∈ pre)
      ∧ evs.filter (fun e => e.isHdBet)
          = [Event.hd_bet plan.hd_bet_input plan.hd_bet_output overwrite] := by
  unfold gen_masks_trace at hm
  cases hplan : gen_masks_plan inputs outputs overwrite fs ex with
  | none => rw [hplan] at hm; exact absurd hm (by simp)
  | some plan =>
    rw [hplan] at hm
    simp only [Option.map_some'] at hm
    obtain rfl := (Option.some.inj hm).symm
    refine ⟨plan,
      (exec plan.b0_tasks).map (fun t => Event.b0_mean t.1 t.2.1 t.2.2.1 t.2.2.2),
      rfl, rfl, ?_, ?_, ?_, ?_⟩
    · intro e he
      obtain ⟨t, _, rfl⟩ := List.mem_map.mp he
      rfl
    · intro e he
      obtain ⟨t, _, rfl⟩ := List.mem_map.mp he
      rfl
    · intro t ht
      exact List.mem_map.mpr ⟨t, ((hexec plan.b0_tasks).mem_iff).mpr ht, rfl⟩
    · rw [List.filter_append]
      have h1 : ((exec plan.b0_tasks).map
            (fun t => Event.b0_mean t.1 t.2.1 t.2.2.1 t.2.2.2)).filter
              (fun e => e.isHdBet) = [] := by
        rw [List.filter_eq_nil_iff]
        intro e he
        obtain ⟨t, _, rfl⟩ := List.mem_map.mp he
        simp [Event.isHdBet]
      rw [h1]
      rfl

/-- Witness for C7: a concrete sequential run. -/
theorem gen_masks_phase_order_witness :
    ∃ plan pre, gen_masks_plan ⟨["in".data]⟩ ⟨["out".data]⟩ false
          [⟨["a_dwi.nii.gz".data]⟩] (fun _ => false) = some plan
      ∧ ([Event.b0_mean ⟨["in".data, "a_dwi.nii.gz".data]⟩
            ⟨["in".data, "a_dwi.bval".data]⟩ ⟨["in".data, "a_dwi.bvec".data]⟩
            ⟨["out".data, "a_dwi.b0.nii.gz".data]⟩,
          Event.hd_bet ["out/a_dwi.b0.nii.gz".data] ["out/a_dwi.nii.gz".data] false]
          : List Event)
          = pre ++ [Event.hd_bet plan.hd_bet_input plan.hd_bet_output false]
      ∧ (∀ e ∈ pre, e.isB0Mean = true)
      ∧ (∀ e ∈ pre, e.isHdBet = false)
      ∧ (∀ t ∈ plan.b0_tasks, Event.b0_mean t.1 t.2.1 t.2.2.1 t.2.2.2 ∈ pre)
      ∧ ([Event.b0_mean ⟨["in".data, "a_dwi.nii.gz".data]⟩
            ⟨["in".data, "a_dwi.bval".data]⟩ ⟨["in".data, "a_dwi.bvec".data]⟩
            ⟨["out".data, "a_dwi.b0.nii.gz".data]⟩,
          Event.hd_bet ["out/a_dwi.b0.nii.gz".data] ["out/a_dwi.nii.gz".data] false]
          : List Event).filter (fun e => e.isHdBet)
          = [Event.hd_bet plan.hd_bet_input plan.hd_bet_output false] :=
  gen_masks_phase_order ⟨["in".data]⟩ ⟨["out".data]⟩ false [⟨["a_dwi.nii.gz".data]⟩]
    (fun _ => false) id (fun l => List.Perm.refl l) _ (by decide)

lemma sum_map_filter {N : Nat} (m : Fin N → Bool) (f : Fin N → ℚ) :
    ∀ l : List (Fin N), (((l.filter (fun i => m i)).map f).sum : ℚ)
        = (l.map (fun i => if m i then f i else 0)).sum := by
  intro l
  induction l with
  | nil => rfl
  | cons a l ih =>
    by_cases h : m a <;> simp [List.filter_cons, h, ih]

lemma length_filter_as_sum {N : Nat} (m : Fin N → Bool) :
    ∀ l : List (Fin N), (l.filter (fun i => m i)).length
        = (l.map (fun i => if m i then (1 : ℕ) else 0)).sum := by
  intro l
  induction l with
  | nil => rfl
  | cons a l ih =>
    by_cases h : m a <;> simp [List.filter_cons, h, ih, Nat.add_comm]

/-- C8: the written b0-mean volume is, voxel-wise, the arithmetic mean of the
input's 4th-axis slices at exactly the indices the gradient table classifies
as b0, and the output carries the input's affine and header unchanged. -/
theorem gen_b0_mean_correct {X Y Z N : Nat} {A H : Type}
    (img : Nifti4 X Y Z N A H) (b0s_mask : Fin N → Bool) :
    (∀ x y z, (gen_b0_mean_model img b0s_mask).data x y z
        = (∑ i ∈ Finset.univ.filter (fun i : Fin N => b0s_mask i = true),
              img.data x y z i)
            / ((Finset.univ.filter (fun i : Fin N => b0s_mask i = true)).card : ℚ))
      ∧ (gen_b0_mean_model img b0s_mask).affine = img.affine
      ∧ (gen_b0_mean_model img b0s_mask).header = img.header := by
  refine ⟨?_, rfl, rfl⟩
  intro x y z
  show meanAxis3 img.data b0s_mask x y z = _
  unfold meanAxis3 selectAxis3
  have hsum : (∑ i ∈ Finset.univ.filter (fun i : Fin N => b0s_mask i = true),
        img.data x y z i)
      = (((List.finRange N).filter (fun i => b0s_mask i)).map (img.data x y z)).sum := by
    rw [Finset.sum_filter, Fin.sum_univ_def, sum_map_filter]
  have hcard : ((Finset.univ.filter (fun i : Fin N => b0s_mask i = true)).card : ℚ)
      = (((List.finRange N).filter (fun i => b0s_mask i)).length : ℚ) := by
    have : (Finset.univ.filter (fun i : Fin N => b0s_mask i = true)).card
        = ((List.finRange N).filter (fun i => b0s_mask i)).length := by
      rw [Finset.card_filter, Fin.sum_univ_def, length_filter_as_sum]
    rw [this]
  rw [hsum, hcard, List.length_map]

/-- The b0 task contributed by a case with directory part `d` (relative to
the input root) and stripped file name `m`. -/
def mkCaseTask (inputs outputs : PyPath) (d : List Str) (m : Str) : B0Task :=
  (⟨inputs.parts ++ d ++ [withSuffixName m sNiiGz]⟩,
    ⟨inputs.parts ++ d ++ [withSuffixName m sBval]⟩,
    ⟨inputs.parts ++ d ++ [withSuffixName m sBvec]⟩,
    ⟨outputs.parts ++ d ++ [withSuffixName m sB0NiiGz]⟩)

lemma withSuffix_nested (A d : List Str) (m t : Str) :
    PyPath.withSuffix ⟨A ++ (d ++ [m])⟩ t = ⟨A ++ d ++ [withSuffixName m t]⟩ := by
  rw [← List.append_assoc, withSuffix_concat]

/-- Every planned b0 task has the case-derived shape. -/
lemma b0_tasks_shape {inputs outputs : PyPath} {overwrite : Bool}
    {fs : List PyPath} {ex : PyPath → Bool}
    (hne : ∀ rel ∈ fs, rel.parts ≠ []) {plan : GenMasksPlan}
    (hp : gen_masks_plan inputs outputs overwrite fs ex = some plan) :
    ∀ t ∈ plan.b0_tasks, ∃ d m, t = mkCaseTask inputs outputs d m := by
  intro t ht
  unfold gen_masks_plan at hp
  cases hmo : mapOpt (process_case inputs outputs overwrite ex) (find_all_cases inputs fs) with
  | none => rw [hmo] at hp; exact absurd hp (by simp)
  | some rs =>
    rw [hmo] at hp
    obtain rfl := (Option.some.inj hp).symm
    dsimp only at ht
    obtain ⟨r, hr, hrt⟩ := List.mem_filterMap.mp ht
    obtain ⟨b, hb, hpc⟩ := exists_of_mem_mapOpt hmo r hr
    obtain ⟨d, n, _, _, hbp⟩ := shape_of_mem_find_all_cases hne hb
    obtain rfl : b = ⟨inputs.parts ++ (d ++ [strRemovesuffix n sNiiGz])⟩ := PyPath.ext' hbp
    rw [process_case_of_shape] at hpc
    obtain rfl := (Option.some.inj hpc).symm
    refine ⟨d, strRemovesuffix n sNiiGz, ?_⟩
    dsimp only at hrt
    cases hc : overwrite
        || !ex (case_b0_out ⟨outputs.parts ++ (d ++ [strRemovesuffix n sNiiGz])⟩) <;>
      simp [hc] at hrt
    rw [← hrt]
    simp only [case_dwi, case_bval, case_bvec, case_b0_out, withSuffix_nested, mkCaseTask]

/-- Two case-derived tasks with the same b0 output path are equal: the b0
output determines the directory part and the name stem, which determine the
whole task. -/
lemma mkCaseTask_b0_out_inj {inputs outputs : PyPath} {d₁ d₂ : List Str} {m₁ m₂ : Str}
    (h : (mkCaseTask inputs outputs d₁ m₁).2.2.2 = (mkCaseTask inputs outputs d₂ m₂).2.2.2) :
    mkCaseTask inputs outputs d₁ m₁ = mkCaseTask inputs outputs d₂ m₂ := by
  have hparts : outputs.parts ++ d₁ ++ [withSuffixName m₁ sB0NiiGz]
      = outputs.parts ++ d₂ ++ [withSuffixName m₂ sB0NiiGz] := congrArg PyPath.parts h
  rw [List.append_assoc, List.append_assoc] at hparts
  have h2 : d₁ ++ [withSuffixName m₁ sB0NiiGz] = d₂ ++ [withSuffixName m₂ sB0NiiGz] :=
    List.append_cancel_left hparts
  have hd : d₁ = d₂ := by
    have h3 := congrArg List.dropLast h2
    simpa using h3
  subst hd
  have hx : withSuffixName m₁ sB0NiiGz = withSuffixName m₂ sB0NiiGz := by
    have h4 := List.append_cancel_left h2
    simpa using h4
  have hstem : stemName m₁ = stemName m₂ := by
    rw [withSuffixName_eq, withSuffixName_eq] at hx
    exact List.append_cancel_right hx
  have hw : ∀ t, withSuffixName m₁ t = withSuffixName m₂ t := by
    intro t
    rw [withSuffixName_eq, withSuffixName_eq, hstem]
  unfold mkCaseTask
  rw [hw sNiiGz, hw sBval, hw sBvec, hw sB0NiiGz]

lemma write_b0_comm {V : Type} (compute : PyPath → PyPath → PyPath → V)
    (x y : B0Task) (hxy : x.2.2.2 = y.2.2.2 → x = y) (st : PyPath → Option V) :
    write_b0 compute (write_b0 compute st x) y
      = write_b0 compute (write_b0 compute st y) x := by
  by_cases hk : x.2.2.2 = y.2.2.2
  · obtain rfl := hxy hk
    rfl
  · funext p
    unfold write_b0
    by_cases hpx : p = x.2.2.2 <;> by_cases hpy : p = y.2.2.2
    · exact absurd (hpx.symm.trans hpy) hk
    · simp [hpx, hpy, hk]
    · simp [hpx, hpy, Ne.symm hk]
    · simp [hpx, hpy]

/-- Executing a task list in any order yields the same file state, provided
tasks that share an output path are equal. -/
lemma run_b0_tasks_perm {V : Type} (compute : PyPath → PyPath → PyPath → V)
    {tasks σ : List B0Task}
    (hkey : ∀ t₁ ∈ tasks, ∀ t₂ ∈ tasks, t₁.2.2.2 = t₂.2.2.2 → t₁ = t₂)
    (hσ : σ.Perm tasks) (st : PyPath → Option V) :
    run_b0_tasks compute σ st = run_b0_tasks compute tasks st := by
  unfold run_b0_tasks
  refine hσ.foldl_eq' ?_ st
  intro x hx y hy st'
  exact write_b0_comm compute x y
    (hkey x (hσ.mem_iff.mp hx) y (hσ.mem_iff.mp hy)) st'

/-- C9: for a fixed input set, the pooled and the sequential b0 phase are
equivalent.  Both branches apply `gen_b0_mean` to the same planned task
list; executing that list in any completion order (the pool's workers finish
in an arbitrary order, the sequential branch in list order) produces the
identical final file state, because two planned tasks can share a b0 output
path only by being the same task. -/
theorem run_b0_tasks_order_invariant {V : Type} (inputs outputs : PyPath)
    (overwrite : Bool) (fs : List PyPath) (ex : PyPath → Bool)
    (hne : ∀ rel ∈ fs, rel.parts ≠ []) (plan : GenMasksPlan)
    (hp : gen_masks_plan inputs outputs overwrite fs ex = some plan)
    (compute : PyPath → PyPath → PyPath → V) (st : PyPath → Option V)
    (σ : List B0Task) (hσ : σ.Perm plan.b0_tasks) :
    run_b0_tasks compute σ st = run_b0_tasks compute plan.b0_tasks st := by
  refine run_b0_tasks_perm compute ?_ hσ st
  intro t₁ h₁ t₂ h₂ hk
  obtain ⟨d₁, m₁, rfl⟩ := b0_tasks_shape hne hp t₁ h₁
  obtain ⟨d₂, m₂, rfl⟩ := b0_tasks_shape hne hp t₂ h₂
  exact mkCaseTask_b0_out_inj hk

/-- Witness for C9: a two-case plan run in reversed order. -/
theorem run_b0_tasks_order_invariant_witness :
    run_b0_tasks (fun _ _ _ => (0 : ℕ))
        [(⟨["in".data, "b_dwi.nii.gz".data]⟩, ⟨["in".data, "b_dwi.bval".data]⟩,
            ⟨["in".data, "b_dwi.bvec".data]⟩, ⟨["out".data, "b_dwi.b0.nii.gz".data]⟩),
          (⟨["in".data, "a_dwi.nii.gz".data]⟩, ⟨["in".data, "a_dwi.bval".data]⟩,
            ⟨["in".data, "a_dwi.bvec".data]⟩, ⟨["out".data, "a_dwi.b0.nii.gz".data]⟩)]
        (fun _ => none)
      = run_b0_tasks (fun _ _ _ => (0 : ℕ))
          (GenMasksPlan.b0_tasks
            ⟨[(⟨["in".data, "a_dwi.nii.gz".data]⟩, ⟨["in".data, "a_dwi.bval".data]⟩,
                ⟨["in".data, "a_dwi.bvec".data]⟩, ⟨["out".data, "a_dwi.b0.nii.gz".data]⟩),
              (⟨["in".data, "b_dwi.nii.gz".data]⟩, ⟨["in".data, "b_dwi.bval".data]⟩,
                ⟨["in".data, "b_dwi.bvec".data]⟩, ⟨["out".data, "b_dwi.b0.nii.gz".data]⟩)],
              ["out/a_dwi.b0.nii.gz".data, "out/b_dwi.b0.nii.gz".data],
              ["out/a_dwi.nii.gz".data, "out/b_dwi.nii.gz".data]⟩)
          (fun _ => none) :=
  run_b0_tasks_order_invariant ⟨["in".data]⟩ ⟨["out".data]⟩ true
    [⟨["a_dwi.nii.gz".data]⟩, ⟨["b_dwi.nii.gz".data]⟩] (fun _ => false)
    (by decide) _ (by decide) (fun _ _ _ => (0 : ℕ)) (fun _ => none) _
    (List.Perm.swap _ _ [])

end Masks
